import Mathlib

/-
Shallow embedding of the bc-code-acc/Video repository.

Part 1. `src/service-worker.js` — the Network Cache Controller.
  A cache is an association list from URL to stored Response; the cache
  storage is an association list from generation tag to cache.  The network
  is a function from URL to the outcome of `fetch` on that URL: either the
  promise resolves to a Response, or it rejects (network failure).

Part 2. `src/unnamed/part_001` — the Downloads tab (Asset Manager over
  OPFS + localStorage).  File bytes are abstracted by their length; OPFS is
  an association list from file name to stored byte length.  Object URLs
  (Playable Handles) are drawn from a counter `nextUrl`.
-/

/-- A js Response, abstracted to its body, status and statusText. -/
structure Response where
  body : String
  status : Nat
  statusText : String
  deriving DecidableEq

/-- js `Response.ok`: the status is in the 200..299 range. -/
def Response.ok (r : Response) : Bool := 200 ≤ r.status && r.status ≤ 299

/-- One cache (the contents of one Cache Generation): URL ↦ stored Response. -/
abbrev CacheMap := List (String × Response)

/-- `cache.match(url)`. -/
def cacheMatch (c : CacheMap) (url : String) : Option Response :=
  (c.find? (fun p => p.1 == url)).map Prod.snd

/-- `cache.put(url, r)`: stores `r` under `url`, overwriting any prior entry. -/
def cachePut (c : CacheMap) (url : String) (r : Response) : CacheMap :=
  (url, r) :: c.filter (fun p => p.1 != url)

/-- Outcome of `fetch(url)`: the promise resolves to a Response, or rejects. -/
inductive NetResult where
  | resolved (r : Response)
  | rejected
  deriving DecidableEq

/-- The network environment: what `fetch` does on each URL. -/
abbrev Net := String → NetResult

/-- `const CACHE = "app-shell-v1"` — the current Cache Generation tag. -/
def CACHE : String := "app-shell-v1"

/-- `scopeURL(path)`: resolves a relative path against the service-worker
    scope (a directory URL ending in a slash), i.e. concatenation. -/
def scopeURL (scope path : String) : String := scope ++ path

/-- `new Response("Offline", { status: 503, statusText: "Offline" })`
    synthesized in the navigation branch. -/
def offlineNavResponse : Response := ⟨"Offline", 503, "Offline"⟩

/-- `new Response("Offline", { status: 503 })` synthesized in the asset branch. -/
def offlineAssetResponse : Response := ⟨"Offline", 503, ""⟩

/-- The navigation branch of the fetch listener (service-worker.js lines
    40-56): look up the scope-resolved index.html in the cache, then try a
    network fetch of that same URL; if it resolves ok, put the fresh copy in
    the cache and return it; if it resolves non-ok, return the cached copy
    if any, else the non-ok response; if it rejects, return the cached copy
    if any, else a synthesized offline response.  Returns the updated cache
    and the response given to the page. -/
def navigationHandler (cache : CacheMap) (net : Net) (scope : String) :
    CacheMap × Response :=
  let indexURL := scopeURL scope "index.html"
  let cached := cacheMatch cache indexURL
  match net indexURL with
  | .resolved fresh =>
      if fresh.ok then (cachePut cache indexURL fresh, fresh)
      else (cache, cached.getD fresh)
  | .rejected => (cache, cached.getD offlineNavResponse)

/-- The same-origin GET branch of the fetch listener (service-worker.js
    lines 58-75): serve the cache if it matches; otherwise fetch, store a
    copy only when the response is ok, and return it; on rejection return
    `cached || offline`, and `cached` is null on this path. -/
def assetHandler (cache : CacheMap) (net : Net) (url : String) :
    CacheMap × Response :=
  match cacheMatch cache url with
  | some c => (cache, c)
  | none =>
    match net url with
    | .resolved fresh =>
        ((if fresh.ok then cachePut cache url fresh else cache), fresh)
    | .rejected => (cache, offlineAssetResponse)

/-- An intercepted request, with the origin of its URL precomputed
    (`new URL(req.url).origin`). -/
structure Request where
  url : String
  method : String
  mode : String
  origin : String
  deriving DecidableEq

/-- Result of the fetch listener: either `e.respondWith` was called with a
    response (and the cache possibly updated), or the request passes through
    to the network untouched. -/
inductive FetchOutcome where
  | handled (cache : CacheMap) (response : Response)
  | passthrough
  deriving DecidableEq

/-- The whole fetch listener (service-worker.js lines 34-76): non-GET
    requests pass through; navigations go to the navigation branch; other
    same-origin requests go to the cache-first asset branch; cross-origin
    requests pass through. -/
def fetchListener (cache : CacheMap) (net : Net) (selfOrigin scope : String)
    (req : Request) : FetchOutcome :=
  if req.method != "GET" then .passthrough
  else if req.mode == "navigate" then
    let p := navigationHandler cache net scope
    .handled p.1 p.2
  else if req.origin == selfOrigin then
    let p := assetHandler cache net req.url
    .handled p.1 p.2
  else .passthrough

/-- The cache storage: generation tag ↦ that generation's cache. -/
abbrev CacheStorage := List (String × CacheMap)

/-- `caches.delete(k)`: removes the cache named `k`. -/
def cachesDelete (storage : CacheStorage) (k : String) : CacheStorage :=
  storage.filter (fun p => p.1 != k)

/-- The activate listener (service-worker.js lines 24-32): enumerate
    `caches.keys()` and delete every cache whose name is not `CACHE`. -/
def activateHandler (storage : CacheStorage) : CacheStorage :=
  (storage.map Prod.fst).foldl
    (fun s k => if k != CACHE then cachesDelete s k else s) storage

/- Helper lemmas for the service-worker model. -/

theorem cacheMatch_put_self (c : CacheMap) (url : String) (r : Response) :
    cacheMatch (cachePut c url r) url = some r := by
  simp [cacheMatch, cachePut, List.find?_cons]

theorem deleteFold_eq_filter (ks : List String) (st : CacheStorage) :
    ks.foldl (fun s k => if k != CACHE then cachesDelete s k else s) st
      = st.filter (fun p => p.1 == CACHE || !(ks.contains p.1)) := by
  induction ks generalizing st with
  | nil =>
      simp [List.contains]
  | cons k ks ih =>
      simp only [List.foldl_cons]
      by_cases hk : k = CACHE
      · subst hk
        simp only [bne_self_eq_false, Bool.false_eq_true, if_false, ih]
        apply List.filter_congr
        intro p _
        by_cases hp : p.1 = CACHE
        · simp [hp]
        · have : (p.1 == CACHE) = false := by
            simp [hp]
          simp [List.contains_cons, this, bne, beq_eq_false_iff_ne, Ne.symm hp, hp]
      · have hkb : (k != CACHE) = true := by
          simp [bne, hk]
        rw [if_pos hkb, ih]
        unfold cachesDelete
        rw [List.filter_filter]
        apply List.filter_congr
        intro p _
        by_cases hp : p.1 = CACHE
        · have hpk : (p.1 != k) = true := by
            simp [bne, hp, Ne.symm hk]
          simp only [hp] at hpk ⊢
          simp [hpk, fun h : CACHE = k => hk h.symm]
        · have hpc : (p.1 == CACHE) = false := by simp [hp]
          simp only [List.contains_cons, hpc, Bool.false_or, Bool.not_or, bne,
            beq_eq_decide]
          rw [Bool.and_comm]

theorem keysFilterComm (st : CacheStorage) :
    (st.filter (fun p => p.1 == CACHE)).map Prod.fst
      = (st.map Prod.fst).filter (fun k => k == CACHE) := by
  induction st with
  | nil => rfl
  | cons p st ih =>
      by_cases hp : p.1 = CACHE
      · simp [List.filter_cons, hp, ih]
      · simp [List.filter_cons, hp, ih]

theorem filter_eq_of_nodup_mem (l : List String) (a : String)
    (hnd : l.Nodup) (hmem : a ∈ l) :
    l.filter (fun k => k == a) = [a] := by
  induction l with
  | nil => cases hmem
  | cons b l ih =>
      rcases List.nodup_cons.mp hnd with ⟨hb, hnd2⟩
      rcases List.mem_cons.mp hmem with h | h
      · subst h
        have hnil : l.filter (fun k => k == a) = [] := by
          rw [List.filter_eq_nil_iff]
          intro x hx
          simp only [beq_iff_eq]
          exact fun hxb => hb (hxb ▸ hx)
        simp [List.filter_cons, hnil]
      · have hab : ¬ b = a := fun he => hb (he ▸ h)
        simp [List.filter_cons, hab, ih hnd2 h]

/-- C4: navigation branch strategy.  Reading "the fetch succeeds" as the
    fetch resolving to an ok response and "the fetch fails" as the fetch
    rejecting: on success the cache entry for the shell document is
    overwritten with the fresh response and the fresh response is returned;
    on failure the previously cached shell is returned; with neither
    available a synthesized offline response with non-success status 503 is
    returned.  In particular, under total network failure with the shell
    cached, the cached shell is returned. -/
theorem c4_navigation_fresh_or_cached_or_offline (cache : CacheMap) (net : Net)
    (scope : String) :
    (∀ fresh, net (scopeURL scope "index.html") = .resolved fresh → fresh.ok = true →
        navigationHandler cache net scope
          = (cachePut cache (scopeURL scope "index.html") fresh, fresh) ∧
        cacheMatch (cachePut cache (scopeURL scope "index.html") fresh)
          (scopeURL scope "index.html") = some fresh) ∧
    (∀ c, net (scopeURL scope "index.html") = .rejected →
        cacheMatch cache (scopeURL scope "index.html") = some c →
        navigationHandler cache net scope = (cache, c)) ∧
    (net (scopeURL scope "index.html") = .rejected →
        cacheMatch cache (scopeURL scope "index.html") = none →
        navigationHandler cache net scope = (cache, offlineNavResponse) ∧
          offlineNavResponse.ok = false) := by
  refine ⟨?_, ?_, ?_⟩
  · intro fresh hnet hok
    exact ⟨by simp [navigationHandler, hnet, hok], cacheMatch_put_self ..⟩
  · intro c hnet hc
    simp [navigationHandler, hnet, hc]
  · intro hnet hc
    exact ⟨by simp [navigationHandler, hnet, hc], by decide⟩

def shellResp : Response := ⟨"shell", 200, "OK"⟩

def exCache : CacheMap := [("https://example.test/index.html", shellResp)]

def netDown : Net := fun _ => .rejected

/-- C4 witness: with the shell cached and the network down, the navigation
    handler serves the cached shell. -/
theorem c4_witness :
    navigationHandler exCache netDown "https://example.test/" = (exCache, shellResp) :=
  (c4_navigation_fresh_or_cached_or_offline exCache netDown
    "https://example.test/").2.1 shellResp rfl (by decide)

/-- C5: same-origin non-navigation GET branch.  A cache hit is served as-is;
    on a miss the network is fetched and a copy is stored only when the
    response is ok; on a miss with network failure the synthesized offline
    response is returned; and after one ok network serve of an uncached URL,
    an identical request is served that same response from cache under any
    later network behaviour (total failure included). -/
theorem c5_asset_cache_first_populate_on_miss (cache : CacheMap) (net net2 : Net)
    (url : String) :
    (∀ c, cacheMatch cache url = some c → assetHandler cache net url = (cache, c)) ∧
    (∀ fresh, cacheMatch cache url = none → net url = .resolved fresh →
        fresh.ok = true →
        assetHandler cache net url = (cachePut cache url fresh, fresh) ∧
        cacheMatch (cachePut cache url fresh) url = some fresh) ∧
    (∀ fresh, cacheMatch cache url = none → net url = .resolved fresh →
        fresh.ok = false →
        assetHandler cache net url = (cache, fresh)) ∧
    (cacheMatch cache url = none → net url = .rejected →
        assetHandler cache net url = (cache, offlineAssetResponse) ∧
          offlineAssetResponse.ok = false) ∧
    (∀ fresh, cacheMatch cache url = none → net url = .resolved fresh →
        fresh.ok = true →
        (assetHandler (assetHandler cache net url).1 net2 url).2 = fresh) := by
  refine ⟨?_, ?_, ?_, ?_, ?_⟩
  · intro c hc
    simp [assetHandler, hc]
  · intro fresh hc hnet hok
    exact ⟨by simp [assetHandler, hc, hnet, hok], cacheMatch_put_self ..⟩
  · intro fresh hc hnet hok
    simp [assetHandler, hc, hnet, hok]
  · intro hc hnet
    exact ⟨by simp [assetHandler, hc, hnet], by decide⟩
  · intro fresh hc hnet hok
    have h1 : assetHandler cache net url = (cachePut cache url fresh, fresh) := by
      simp [assetHandler, hc, hnet, hok]
    rw [h1]
    simp [assetHandler, cacheMatch_put_self]

def exAssetResp : Response := ⟨"icon-bytes", 200, "OK"⟩

def netUpAsset : Net := fun _ => .resolved exAssetResp

/-- C5 witness: an uncached asset served once from a live network is then
    served from cache under total network failure. -/
theorem c5_witness :
    (assetHandler (assetHandler [] netUpAsset "https://example.test/assets/icon-192.png").1
      netDown "https://example.test/assets/icon-192.png").2 = exAssetResp :=
  (c5_asset_cache_first_populate_on_miss [] netUpAsset netDown
    "https://example.test/assets/icon-192.png").2.2.2.2 exAssetResp rfl rfl (by decide)

/-- C6: the activate listener deletes every cache generation whose tag is
    not the current `CACHE` tag; when the current generation exists among
    the (unique) cache names — as `install` guarantees by opening it —
    exactly the current generation remains enumerable afterwards. -/
theorem c6_activate_deletes_stale_generations (storage : CacheStorage) :
    activateHandler storage = storage.filter (fun p => p.1 == CACHE) ∧
    ((storage.map Prod.fst).Nodup → CACHE ∈ storage.map Prod.fst →
      (activateHandler storage).map Prod.fst = [CACHE]) := by
  have h1 : activateHandler storage = storage.filter (fun p => p.1 == CACHE) := by
    unfold activateHandler
    rw [deleteFold_eq_filter]
    apply List.filter_congr
    intro p hp
    have hmem : p.1 ∈ storage.map Prod.fst := List.mem_map_of_mem Prod.fst hp
    have hcon : (storage.map Prod.fst).contains p.1 = true := by
      unfold List.contains
      exact List.elem_eq_true_of_mem hmem
    rw [hcon]
    simp
  refine ⟨h1, fun hnd hmem => ?_⟩
  rw [h1, keysFilterComm]
  exact filter_eq_of_nodup_mem _ _ hnd hmem

def exStorage : CacheStorage := [("app-shell-v1", []), ("old-shell-v0", [])]

/-- C6 witness: activating over a current and a stale generation leaves only
    the current tag enumerable. -/
theorem c6_witness : (activateHandler exStorage).map Prod.fst = [CACHE] :=
  (c6_activate_deletes_stale_generations exStorage).2 (by decide) (by decide)

/-- C10: every navigation GET request is answered by the navigation handler,
    whose outcome never depends on the URL being navigated to: any two
    navigation GET requests get the identical answer, and the response is
    the shell document fetched from the network at the scope-resolved
    index.html URL, or the cached entry for that URL, or the synthesized
    offline response — never the bytes of the requested path. -/
theorem c10_navigation_always_serves_shell (cache : CacheMap) (net : Net)
    (selfOrigin scope : String) (req : Request)
    (hm : req.method = "GET") (hmode : req.mode = "navigate") :
    fetchListener cache net selfOrigin scope req
      = .handled (navigationHandler cache net scope).1
          (navigationHandler cache net scope).2 ∧
    (∀ req2 : Request, req2.method = "GET" → req2.mode = "navigate" →
        fetchListener cache net selfOrigin scope req2
          = fetchListener cache net selfOrigin scope req) ∧
    ((navigationHandler cache net scope).2 = offlineNavResponse ∨
      (∃ f, net (scopeURL scope "index.html") = .resolved f ∧
        (navigationHandler cache net scope).2 = f) ∨
      cacheMatch cache (scopeURL scope "index.html")
        = some (navigationHandler cache net scope).2) := by
  have hl : ∀ r : Request, r.method = "GET" → r.mode = "navigate" →
      fetchListener cache net selfOrigin scope r
        = .handled (navigationHandler cache net scope).1
            (navigationHandler cache net scope).2 := by
    intro r h1 h2
    simp [fetchListener, h1, h2]
  refine ⟨hl req hm hmode, ?_, ?_⟩
  · intro r2 h1 h2
    rw [hl r2 h1 h2, hl req hm hmode]
  · cases hn : net (scopeURL scope "index.html") with
    | resolved fresh =>
        by_cases hok : fresh.ok = true
        · exact Or.inr (Or.inl ⟨fresh, rfl, by simp [navigationHandler, hn, hok]⟩)
        · cases hc : cacheMatch cache (scopeURL scope "index.html") with
          | some c =>
              exact Or.inr (Or.inr (by simp [navigationHandler, hn, hok, hc]))
          | none =>
              exact Or.inr (Or.inl ⟨fresh, rfl, by
                simp [navigationHandler, hn, hok, hc]⟩)
    | rejected =>
        cases hc : cacheMatch cache (scopeURL scope "index.html") with
        | some c =>
            exact Or.inr (Or.inr (by simp [navigationHandler, hn, hc]))
        | none =>
            exact Or.inl (by simp [navigationHandler, hn, hc])

def reqNav : Request :=
  ⟨"https://example.test/some/deep/route", "GET", "navigate", "https://example.test"⟩

/-- C10 witness: a navigation GET for a deep route is answered by the
    navigation handler on the shell URL. -/
theorem c10_witness :
    fetchListener exCache netDown "https://example.test" "https://example.test/" reqNav
      = .handled (navigationHandler exCache netDown "https://example.test/").1
          (navigationHandler exCache netDown "https://example.test/").2 :=
  (c10_navigation_always_serves_shell exCache netDown "https://example.test"
    "https://example.test/" reqNav rfl rfl).1

/-
Part 2: the Downloads tab of src/unnamed/part_001 (Asset Manager).
The Blob Store is the OPFS "videos" directory, the Metadata Index is the
localStorage list under DL_VIDS_META_KEY, and Playable Handles are object
URLs, modelled as values of a counter.  All operations below are the
hasOPFS = true (persistent-mode) paths of the source.
-/

/-- A Metadata Record: one persisted `{name, size}` pair. -/
structure MetaRecord where
  name : String
  size : Nat
  deriving DecidableEq

/-- Durable state: the OPFS videos directory (file name ↦ stored byte
    length; bytes are abstracted by their length, and a write lands
    atomically per the createWritable commit-on-close contract), the
    metadata list, and the object-URL allocator. -/
structure St where
  opfs : List (String × Nat)
  meta : List MetaRecord
  nextUrl : Nat
  deriving DecidableEq

/-- One entry of the in-memory `videos` list: `{name, size, url}`. -/
structure Video where
  name : String
  size : Nat
  url : Nat
  deriving DecidableEq

/-- One picked file, together with the environment's choice of whether its
    OPFS write (stream pipeTo) succeeds. -/
structure FileInput where
  name : String
  size : Nat
  writeOk : Bool
  deriving DecidableEq

def opfsNames (s : St) : List String := s.opfs.map Prod.fst

def metaNames (s : St) : List String := s.meta.map MetaRecord.name

/-- Lookup of a file in the videos directory. -/
def opfsFind (s : St) (name : String) : Option (String × Nat) :=
  s.opfs.find? (fun p => p.1 == name)

/-- The successful effect of `writeFileToOPFS`: the entry for the name is
    created or overwritten. -/
def writeOneOk (s : St) (f : FileInput) : St :=
  { s with opfs := (f.name, f.size) :: s.opfs.filter (fun p => p.1 != f.name) }

/-- `writeFileToOPFS(file)` (part_001 lines 471-479): getFileHandle with
    create, createWritable, stream into OPFS; returns `{name, size}`.  If
    the stream fails the swap file is discarded, so the store is unchanged
    on error. -/
def writeFileToOPFS (s : St) (f : FileInput) : Except String (St × MetaRecord) :=
  if f.writeOk then .ok (writeOneOk s f, ⟨f.name, f.size⟩)
  else .error "write failed"

/-- `readFileFromOPFS(name)` (lines 481-485): getFileHandle with
    create:false rejects with NotFoundError when the name is absent;
    otherwise the File (here: its size) is returned. -/
def readFileFromOPFS (s : St) (name : String) : Except String Nat :=
  match opfsFind s name with
  | some p => .ok p.2
  | none => .error "NotFoundError"

/-- `deleteFromOPFS(name)` (lines 487-490): `dir.removeEntry(name)` with no
    handler.  Per the File System standard, removeEntry rejects with
    NotFoundError when no entry with that name exists, so the deletion is
    NOT a silent no-op on an absent name. -/
def deleteFromOPFS (s : St) (name : String) : Except String St :=
  match opfsFind s name with
  | some _ => .ok { s with opfs := s.opfs.filter (fun p => p.1 != name) }
  | none => .error "NotFoundError"

/-- js `Map.set` on a name-keyed collection: replace in place when the name
    is present, append otherwise. -/
def mapSet (l : List MetaRecord) (m : MetaRecord) : List MetaRecord :=
  if l.any (fun x => x.name == m.name) then
    l.map (fun x => if x.name == m.name then m else x)
  else l ++ [m]

/-- The metadata merge of handleAdd (lines 564-567): `new Map` from the
    existing records, then `set` each added record, then the Map's values.
    This is the Metadata Index `upsertAll` of the spec. -/
def upsertAll (existing added : List MetaRecord) : List MetaRecord :=
  added.foldl mapSet (existing.foldl mapSet [])

/-- The rebuild loop (lines 510-518 and 571-578): for each record, try
    `readFileFromOPFS`; on success push `{name, size: file.size, url}` with
    a freshly created object URL; on failure silently skip the record. -/
def rebuildGo (s : St) : List MetaRecord → Nat → List Video × Nat
  | [], u => ([], u)
  | m :: rest, u =>
    match readFileFromOPFS s m.name with
    | .ok sz =>
        let p := rebuildGo s rest (u + 1)
        (⟨m.name, sz, u⟩ :: p.1, p.2)
    | .error _ => rebuildGo s rest u

/-- `rebuild()`: the mount effect of TabDownloads (lines 497-532, hasOPFS
    path): read the metadata list and rebuild the playable list, skipping
    records whose blob is missing; never throws. -/
def rebuild (s : St) : List Video × St :=
  let p := rebuildGo s s.meta s.nextUrl
  (p.1, { s with nextUrl := p.2 })

/-- The for-loop of handleAdd over the picked files (lines 548-560, hasOPFS
    path): write each file to OPFS and accumulate its `{name, size}`.  A
    throwing write escapes to handleAdd's catch: the returned metadata is
    `none` and the remaining files are not processed. -/
def addLoop : St → List MetaRecord → List FileInput → St × Option (List MetaRecord)
  | s, acc, [] => (s, some acc)
  | s, acc, f :: rest =>
    match writeFileToOPFS s f with
    | .ok (s2, m) => addLoop s2 (acc ++ [m]) rest
    | .error _ => (s, none)

/-- `handleAdd` (lines 534-590, hasOPFS path), i.e. `importAssets`: run the
    write loop; if it completes with records, merge them into the metadata
    in one upsertAll, persist, rebuild the playable list and report success;
    if it completes empty, only report; if a write threw, the catch reports
    the single toast "Failed to add video" with the metadata untouched.
    Returns (new state, setVideos argument if any, toast message). -/
def handleAdd (s : St) (videos : List Video) (files : List FileInput) :
    St × List Video × String :=
  match addLoop s [] files with
  | (s2, some added) =>
    if added.isEmpty then (s2, videos, "Video(s) added (session-only)")
    else
      let s3 := { s2 with meta := upsertAll s2.meta added }
      let p := rebuild s3
      (p.2, p.1, "Video(s) saved for offline use")
  | (s2, none) => (s2, videos, "Failed to add video")

/-- The intermediate states of the handleAdd write loop: one state after
    each completed `writeFileToOPFS`. -/
def addLoopStates : St → List FileInput → List St
  | _, [] => []
  | s, f :: rest =>
    match writeFileToOPFS s f with
    | .ok (s2, _) => s2 :: addLoopStates s2 rest
    | .error _ => []

/-- Every state an observer can see during handleAdd: the initial state,
    the state after each per-file write, and the final state. -/
def handleAddTrace (s : St) (videos : List Video) (files : List FileInput) :
    List St :=
  s :: addLoopStates s files ++ [(handleAdd s videos files).1]

/-- `handleRemove(name)` (lines 592-605, hasOPFS path): deleteFromOPFS, then
    drop the record from the metadata and the video from the list, toasting
    "Removed"; if the delete threw, the catch only toasts "Could not
    remove", leaving metadata and list unchanged. -/
def handleRemove (s : St) (videos : List Video) (name : String) :
    St × List Video × String :=
  match deleteFromOPFS s name with
  | .ok s2 =>
      ({ s2 with meta := s2.meta.filter (fun m => m.name != name) },
        videos.filter (fun v => v.name != name), "Removed")
  | .error _ => (s, videos, "Could not remove")

/- Helper lemmas for the Downloads model. -/

theorem rebuildGo_pairs (s : St) (ms : List MetaRecord) (u : Nat) :
    (rebuildGo s ms u).1.map (fun v => (v.name, v.size))
      = ms.filterMap (fun m =>
          match readFileFromOPFS s m.name with
          | .ok sz => some (m.name, sz)
          | .error _ => none) := by
  induction ms generalizing u with
  | nil => rfl
  | cons m rest ih =>
      cases hr : readFileFromOPFS s m.name with
      | ok sz => simp [rebuildGo, hr, List.filterMap_cons, ih]
      | error e => simp [rebuildGo, hr, List.filterMap_cons, ih]

theorem rebuildGo_urls (s : St) (ms : List MetaRecord) (u : Nat) :
    (rebuildGo s ms u).1.map Video.url
      = List.range' u (rebuildGo s ms u).1.length := by
  induction ms generalizing u with
  | nil => rfl
  | cons m rest ih =>
      cases hr : readFileFromOPFS s m.name with
      | ok sz =>
          simp only [rebuildGo, hr, List.map_cons, List.length_cons,
            List.range'_succ]
          rw [ih]
      | error e => simp only [rebuildGo, hr]; exact ih u

theorem rebuild_fst : ∀ s : St, (rebuild s).1 = (rebuildGo s s.meta s.nextUrl).1 :=
  fun _ => rfl

theorem mem_rebuild_name (s : St) (v : Video) (hv : v ∈ (rebuild s).1) :
    ∃ m ∈ s.meta, m.name = v.name ∧ readFileFromOPFS s m.name = .ok v.size := by
  rw [rebuild_fst] at hv
  have hmem : (v.name, v.size)
      ∈ (rebuildGo s s.meta s.nextUrl).1.map (fun v => (v.name, v.size)) :=
    List.mem_map_of_mem _ hv
  rw [rebuildGo_pairs] at hmem
  rcases List.mem_filterMap.mp hmem with ⟨m, hm, heq⟩
  cases hr : readFileFromOPFS s m.name with
  | ok sz =>
      rw [hr] at heq
      simp only [Option.some.injEq, Prod.mk.injEq] at heq
      exact ⟨m, hm, heq.1, by rw [hr, heq.2]⟩
  | error e => rw [hr] at heq; cases heq

/-- C3: rebuild reads every Metadata Record, keeps exactly those whose Blob
    Store read succeeded (with the read size), silently drops the failures,
    and allocates a fresh Playable Handle for each kept record (all handles
    are pairwise distinct and newly allocated).  The function is total, so
    no combination of missing blobs makes it throw. -/
theorem c3_rebuild_exact_successes (s : St) :
    (rebuild s).1.map (fun v => (v.name, v.size))
      = s.meta.filterMap (fun m =>
          match readFileFromOPFS s m.name with
          | .ok sz => some (m.name, sz)
          | .error _ => none) ∧
    ((rebuild s).1.map Video.url).Nodup ∧
    (∀ v ∈ (rebuild s).1, s.nextUrl ≤ v.url) := by
  refine ⟨by rw [rebuild_fst, rebuildGo_pairs], ?_, ?_⟩
  · rw [rebuild_fst, rebuildGo_urls]
    exact List.nodup_range' _ _
  · intro v hv
    have : v.url ∈ (rebuild s).1.map Video.url := List.mem_map_of_mem _ hv
    rw [rebuild_fst, rebuildGo_urls] at this
    exact (List.mem_range'_1.mp this).1

/-- C9: after remove(name), a rebuild never lists `name` again: if the
    delete succeeded the record is filtered out of the metadata, and if the
    delete threw (blob already absent) the state is unchanged but the
    rebuild read of `name` fails, so the record is dropped either way. -/
theorem c9_remove_then_rebuild_never_resurfaces (s : St) (videos : List Video)
    (name : String) :
    ∀ v ∈ (rebuild (handleRemove s videos name).1).1, v.name ≠ name := by
  intro v hv
  cases hdel : deleteFromOPFS s name with
  | ok s2 =>
      rw [show (handleRemove s videos name).1
            = { s2 with meta := s2.meta.filter (fun m => m.name != name) } from by
          simp [handleRemove, hdel]] at hv
      rcases mem_rebuild_name _ v hv with ⟨m, hm, hname, _⟩
      have := (List.mem_filter.mp hm).2
      rw [← hname]
      exact bne_iff_ne.mp this
  | error e =>
      rw [show (handleRemove s videos name).1 = s from by
          simp [handleRemove, hdel]] at hv
      have hnone : opfsFind s name = none := by
        cases hof : opfsFind s name with
        | some p => rw [deleteFromOPFS, hof] at hdel; cases hdel
        | none => rfl
      rcases mem_rebuild_name _ v hv with ⟨m, hm, hname, hread⟩
      intro hvn
      rw [hname, hvn, readFileFromOPFS, hnone] at hread
      cases hread

def stOrphan : St := ⟨[("b.mp4", 9)], [⟨"a.mp4", 7⟩, ⟨"b.mp4", 9⟩], 0⟩

/-- C9 witness: removing a name whose blob is already gone, then rebuilding,
    lists an unrelated surviving video whose name differs from the removed
    one. -/
theorem c9_witness :
    (⟨"b.mp4", 9, 0⟩ : Video) ∈ (rebuild (handleRemove stOrphan [] "a.mp4").1).1 ∧
    (⟨"b.mp4", 9, 0⟩ : Video).name ≠ "a.mp4" :=
  ⟨by decide, c9_remove_then_rebuild_never_resurfaces stOrphan [] "a.mp4"
    ⟨"b.mp4", 9, 0⟩ (by decide)⟩

def stWithA : St := ⟨[("a.mp4", 7)], [⟨"a.mp4", 7⟩], 0⟩

def stNoBlobA : St := ⟨[], [⟨"a.mp4", 7⟩], 0⟩

/-- C2 counterexample: the Blob Store delete is not a silent no-op on an
    absent name — the second of two back-to-back deletes rejects with
    NotFoundError — and handleRemove on a name whose blob is gone reports
    "Could not remove" and leaves the Metadata Index entry in place, so the
    removal does not succeed from the caller's perspective. -/
theorem c2_counterexample :
    deleteFromOPFS stWithA "a.mp4" = .ok stNoBlobA ∧
    deleteFromOPFS stNoBlobA "a.mp4" = .error "NotFoundError" ∧
    handleRemove stNoBlobA [] "a.mp4" = (stNoBlobA, [], "Could not remove") ∧
    (handleRemove stNoBlobA [] "a.mp4").1.meta = [⟨"a.mp4", 7⟩] :=
  ⟨rfl, rfl, rfl, rfl⟩

/-- C2 amended: delete(name) rejects with NotFoundError exactly when the
    name is absent from the Blob Store (so a repeated delete errors), and in
    that case handleRemove surfaces the failure ("Could not remove") leaving
    state, metadata and listed set unchanged; when the name is present the
    delete succeeds and removes the entry. -/
theorem c2_amended_delete_rejects_when_absent (s : St) (videos : List Video)
    (name : String) :
    (opfsFind s name = none →
        deleteFromOPFS s name = .error "NotFoundError" ∧
        handleRemove s videos name = (s, videos, "Could not remove")) ∧
    (∀ p, opfsFind s name = some p →
        deleteFromOPFS s name
          = .ok { s with opfs := s.opfs.filter (fun q => q.1 != name) }) := by
  constructor
  · intro h
    exact ⟨by simp [deleteFromOPFS, h], by simp [handleRemove, deleteFromOPFS, h]⟩
  · intro p h
    simp [deleteFromOPFS, h]

/-- C2 amended witness: deleting the absent name again errors and the
    removal is reported as failed with nothing changed. -/
theorem c2_amended_witness :
    deleteFromOPFS stNoBlobA "a.mp4" = .error "NotFoundError" ∧
    handleRemove stNoBlobA [] "a.mp4" = (stNoBlobA, [], "Could not remove") :=
  (c2_amended_delete_rejects_when_absent stNoBlobA [] "a.mp4").1 rfl

def metaFind (l : List MetaRecord) (name : String) : Option MetaRecord :=
  l.find? (fun m => m.name == name)

/-- The last record carrying `name` in a list of writes, if any. -/
def lastWrite : List MetaRecord → String → Option MetaRecord
  | [], _ => none
  | m :: rest, name =>
    match lastWrite rest name with
    | some r => some r
    | none => if m.name == name then some m else none

def optOr (a b : Option MetaRecord) : Option MetaRecord :=
  match a with
  | some x => some x
  | none => b

@[simp] theorem optOr_some (x : MetaRecord) (b : Option MetaRecord) :
    optOr (some x) b = some x := rfl

@[simp] theorem optOr_none (b : Option MetaRecord) : optOr none b = b := rfl

theorem find?_map_replace_ne (l : List MetaRecord) (m : MetaRecord) (name : String)
    (h : (m.name == name) = false) :
    List.find? (fun x => x.name == name)
        (l.map (fun x => if x.name == m.name then m else x))
      = List.find? (fun x => x.name == name) l := by
  induction l with
  | nil => rfl
  | cons x l ih =>
      by_cases hx : (x.name == m.name) = true
      · have hxm : x.name = m.name := eq_of_beq hx
        have hxp : (x.name == name) = false := by rw [hxm]; exact h
        simp only [List.map_cons, if_pos hx, List.find?_cons, h, hxp]
        exact ih
      · simp only [List.map_cons, if_neg hx, List.find?_cons]
        cases hp : (x.name == name) with
        | true => rfl
        | false => exact ih

theorem find?_map_replace_eq (l : List MetaRecord) (m : MetaRecord)
    (hany : l.any (fun x => x.name == m.name) = true) :
    List.find? (fun x => x.name == m.name)
        (l.map (fun x => if x.name == m.name then m else x))
      = some m := by
  induction l with
  | nil => cases hany
  | cons x l ih =>
      by_cases hx : (x.name == m.name) = true
      · rw [List.map_cons, if_pos hx, List.find?_cons]
        simp
      · have hx2 : (x.name == m.name) = false := by simpa using hx
        rw [List.map_cons, if_neg hx, List.find?_cons]
        simp only [hx2]
        apply ih
        simpa [List.any_cons, hx2] using hany

theorem find?_eq_none_of_any_false (l : List MetaRecord) (m : MetaRecord)
    (hany : l.any (fun x => x.name == m.name) = false) :
    List.find? (fun x => x.name == m.name) l = none := by
  rw [List.find?_eq_none]
  intro x hx
  exact fun hp => by simp [List.any_eq_false.mp hany x hx] at hp

theorem find?_append_single (l : List MetaRecord) (m : MetaRecord)
    (p : MetaRecord → Bool) :
    List.find? p (l ++ [m])
      = optOr (List.find? p l) (if p m then some m else none) := by
  induction l with
  | nil =>
      cases hm : p m with
      | true => simp [List.find?_cons, hm]
      | false => simp [List.find?_cons, hm]
  | cons x l ih =>
      cases hx : p x with
      | true => simp [List.find?_cons, hx]
      | false => simp [List.find?_cons, hx, ih]

theorem metaFind_mapSet (l : List MetaRecord) (m : MetaRecord) (name : String) :
    metaFind (mapSet l m) name
      = if m.name == name then some m else metaFind l name := by
  unfold mapSet metaFind
  by_cases hany : l.any (fun x => x.name == m.name) = true
  · rw [if_pos hany]
    by_cases hn : (m.name == name) = true
    · have he : m.name = name := eq_of_beq hn
      rw [if_pos hn]
      subst he
      exact find?_map_replace_eq l m hany
    · have h' : (m.name == name) = false := by simpa using hn
      rw [if_neg hn]
      exact find?_map_replace_ne l m name h'
  · rw [if_neg hany]
    rw [find?_append_single]
    by_cases hn : (m.name == name) = true
    · have he : m.name = name := eq_of_beq hn
      have hnone : List.find? (fun x => x.name == name) l = none := by
        subst he
        exact find?_eq_none_of_any_false l m (by simpa using hany)
      simp [hnone, hn]
    · have h' : (m.name == name) = false := by simpa using hn
      simp only [h', Bool.false_eq_true, if_false]
      cases hf : List.find? (fun x => x.name == name) l with
      | some r => rfl
      | none => rfl

theorem metaFind_foldl_mapSet (ms : List MetaRecord) (acc : List MetaRecord)
    (name : String) :
    metaFind (ms.foldl mapSet acc) name
      = optOr (lastWrite ms name) (metaFind acc name) := by
  induction ms generalizing acc with
  | nil => rfl
  | cons m rest ih =>
      rw [List.foldl_cons, ih, metaFind_mapSet]
      cases hl : lastWrite rest name with
      | some r => simp [lastWrite, hl]
      | none =>
          by_cases hm : (m.name == name) = true
          · simp [lastWrite, hl, hm]
          · have h' : (m.name == name) = false := by simpa using hm
            simp [lastWrite, hl, h']

theorem mapSet_names (l : List MetaRecord) (m : MetaRecord) :
    (mapSet l m).map MetaRecord.name
      = if l.any (fun x => x.name == m.name) = true
        then l.map MetaRecord.name
        else l.map MetaRecord.name ++ [m.name] := by
  unfold mapSet
  by_cases hany : l.any (fun x => x.name == m.name) = true
  · rw [if_pos hany, if_pos hany, List.map_map]
    apply List.map_congr_left
    intro x _
    by_cases hx : x.name = m.name
    · simp [hx]
    · simp [hx]
  · rw [if_neg hany, if_neg hany, List.map_append]
    rfl

theorem mapSet_names_nodup (l : List MetaRecord) (m : MetaRecord)
    (h : (l.map MetaRecord.name).Nodup) :
    ((mapSet l m).map MetaRecord.name).Nodup := by
  rw [mapSet_names]
  by_cases hany : l.any (fun x => x.name == m.name) = true
  · rw [if_pos hany]; exact h
  · rw [if_neg hany]
    rw [List.nodup_append]
    refine ⟨h, List.nodup_singleton _, ?_⟩
    intro a ha hb
    rcases List.mem_map.mp ha with ⟨x, hx, hxe⟩
    rcases List.mem_singleton.mp hb with rfl
    have hbeq : (x.name == m.name) = true := by simp [hxe]
    exact absurd (List.any_eq_true.mpr ⟨x, hx, hbeq⟩) hany

theorem foldl_mapSet_names_nodup (ms : List MetaRecord) (acc : List MetaRecord)
    (h : (acc.map MetaRecord.name).Nodup) :
    ((ms.foldl mapSet acc).map MetaRecord.name).Nodup := by
  induction ms generalizing acc with
  | nil => exact h
  | cons m rest ih => exact ih _ (mapSet_names_nodup acc m h)

theorem upsertAll_names_nodup (l r : List MetaRecord) :
    ((upsertAll l r).map MetaRecord.name).Nodup :=
  foldl_mapSet_names_nodup r _ (foldl_mapSet_names_nodup l [] (by simp))

/-- C7: the metadata merge deduplicates by name and the latest write wins:
    whatever the initial collection and a first upsertAll write, a second
    upsertAll whose last record for `name` is `m2` leaves `m2` (hence its
    size) as the stored record for `name`, and the stored collection holds
    each name at most once. -/
theorem c7_upsertAll_latest_write_wins (l r1 r2 : List MetaRecord)
    (name : String) (m2 : MetaRecord)
    (h2 : lastWrite r2 name = some m2) :
    metaFind (upsertAll (upsertAll l r1) r2) name = some m2 ∧
    ((upsertAll (upsertAll l r1) r2).map MetaRecord.name).Nodup := by
  constructor
  · unfold upsertAll
    rw [metaFind_foldl_mapSet, h2, optOr_some]
  · exact upsertAll_names_nodup _ _

/-- C7 witness: two upserts both writing "a.mp4"; the second size, 20, is
    the stored one. -/
theorem c7_witness :
    metaFind (upsertAll (upsertAll [] [⟨"a.mp4", 10⟩]) [⟨"a.mp4", 20⟩]) "a.mp4"
        = some ⟨"a.mp4", 20⟩ ∧
    ((upsertAll (upsertAll [] [⟨"a.mp4", 10⟩]) [⟨"a.mp4", 20⟩]).map
        MetaRecord.name).Nodup :=
  c7_upsertAll_latest_write_wins [] [⟨"a.mp4", 10⟩] [⟨"a.mp4", 20⟩] "a.mp4"
    ⟨"a.mp4", 20⟩ (by decide)

/- Lemmas about the handleAdd write loop. -/

theorem opfsNames_writeOneOk_mem (s : St) (f : FileInput) (n : String)
    (h : n ∈ opfsNames s) : n ∈ opfsNames (writeOneOk s f) := by
  unfold writeOneOk opfsNames at *
  by_cases he : n = f.name
  · simp [he]
  · simp only [List.map_cons, List.mem_cons]
    right
    rcases List.mem_map.mp h with ⟨p, hp, hpe⟩
    exact List.mem_map.mpr
      ⟨p, List.mem_filter.mpr ⟨hp, bne_iff_ne.mpr (hpe ▸ he)⟩, hpe⟩

theorem opfsNames_writeOneOk_self (s : St) (f : FileInput) :
    f.name ∈ opfsNames (writeOneOk s f) := by
  simp [writeOneOk, opfsNames]

theorem addLoop_cons_ok (s : St) (acc : List MetaRecord) (f : FileInput)
    (rest : List FileInput) (hok : f.writeOk = true) :
    addLoop s acc (f :: rest)
      = addLoop (writeOneOk s f) (acc ++ [⟨f.name, f.size⟩]) rest := by
  simp [addLoop, writeFileToOPFS, hok]

theorem addLoop_cons_err (s : St) (acc : List MetaRecord) (f : FileInput)
    (rest : List FileInput) (hok : f.writeOk = false) :
    addLoop s acc (f :: rest) = (s, none) := by
  simp [addLoop, writeFileToOPFS, hok]

theorem addLoop_meta (files : List FileInput) (s : St) (acc : List MetaRecord) :
    ((addLoop s acc files).1).meta = s.meta := by
  induction files generalizing s acc with
  | nil => rfl
  | cons f rest ih =>
      cases hok : f.writeOk with
      | true => rw [addLoop_cons_ok s acc f rest hok]; exact ih _ _
      | false => rw [addLoop_cons_err s acc f rest hok]

theorem addLoop_opfs_mono (files : List FileInput) (s : St)
    (acc : List MetaRecord) (n : String) (h : n ∈ opfsNames s) :
    n ∈ opfsNames (addLoop s acc files).1 := by
  induction files generalizing s acc with
  | nil => exact h
  | cons f rest ih =>
      cases hok : f.writeOk with
      | true =>
          rw [addLoop_cons_ok s acc f rest hok]
          exact ih _ _ (opfsNames_writeOneOk_mem s f n h)
      | false => rw [addLoop_cons_err s acc f rest hok]; exact h

theorem addLoop_success_written (files : List FileInput) (s : St)
    (acc : List MetaRecord) (s2 : St) (added : List MetaRecord)
    (h : addLoop s acc files = (s2, some added)) :
    ∀ f ∈ files, f.name ∈ opfsNames s2 := by
  induction files generalizing s acc with
  | nil => intro f hf; cases hf
  | cons g rest ih =>
      cases hok : g.writeOk with
      | true =>
          rw [addLoop_cons_ok s acc g rest hok] at h
          intro f hf
          rcases List.mem_cons.mp hf with rfl | hf2
          · have hs2 : (addLoop (writeOneOk s f) (acc ++ [⟨f.name, f.size⟩]) rest).1 = s2 := by
              rw [h]
            rw [← hs2]
            exact addLoop_opfs_mono rest _ _ _ (opfsNames_writeOneOk_self s f)
          · exact ih _ _ h f hf2
      | false =>
          rw [addLoop_cons_err s acc g rest hok] at h
          simp at h

theorem addLoopStates_spec (files : List FileInput) (s : St) :
    ∀ st ∈ addLoopStates s files,
      st.meta = s.meta ∧ ∀ n ∈ opfsNames s, n ∈ opfsNames st := by
  induction files generalizing s with
  | nil => intro st hst; cases hst
  | cons f rest ih =>
      intro st hst
      cases hok : f.writeOk with
      | true =>
          rw [show addLoopStates s (f :: rest)
                = writeOneOk s f :: addLoopStates (writeOneOk s f) rest from by
              simp [addLoopStates, writeFileToOPFS, hok]] at hst
          rcases List.mem_cons.mp hst with rfl | h2
          · exact ⟨rfl, fun n hn => opfsNames_writeOneOk_mem s f n hn⟩
          · rcases ih (writeOneOk s f) st h2 with ⟨h3, h4⟩
            exact ⟨h3, fun n hn => h4 n (opfsNames_writeOneOk_mem s f n hn)⟩
      | false =>
          rw [show addLoopStates s (f :: rest) = [] from by
              simp [addLoopStates, writeFileToOPFS, hok]] at hst
          cases hst

theorem handleAdd_fst_opfs_of_success (s : St) (videos : List Video)
    (files : List FileInput) (s2 : St) (added : List MetaRecord)
    (haddl : addLoop s [] files = (s2, some added))
    (hne : added.isEmpty = false) :
    (handleAdd s videos files).1.opfs = s2.opfs := by
  simp [handleAdd, haddl, hne, rebuild]

/-- C1: within importAssets (handleAdd), every per-file Blob Store write
    precedes the single batched Metadata Index update: (a) the metadata is
    untouched at the initial state and after each per-file write; (b) when
    the import reports success (the only path that updates the index),
    every imported name is present in the Blob Store of the final state;
    and (c) provided no imported name is already orphaned beforehand, at
    every observable state of the import the Metadata Index never lists an
    imported name whose bytes are not in the Blob Store. -/
theorem c1_writes_precede_index_update (s : St) (videos : List Video)
    (files : List FileInput) :
    (∀ st ∈ s :: addLoopStates s files, st.meta = s.meta) ∧
    ((handleAdd s videos files).2.2 = "Video(s) saved for offline use" →
      ∀ f ∈ files, f.name ∈ opfsNames (handleAdd s videos files).1) ∧
    ((∀ f ∈ files, f.name ∈ metaNames s → f.name ∈ opfsNames s) →
      ∀ st ∈ handleAddTrace s videos files, ∀ f ∈ files,
        f.name ∈ metaNames st → f.name ∈ opfsNames st) := by
  have hmid : ∀ st ∈ s :: addLoopStates s files, st.meta = s.meta := by
    intro st hst
    rcases List.mem_cons.mp hst with rfl | h2
    · rfl
    · exact (addLoopStates_spec files s st h2).1
  refine ⟨hmid, ?_, ?_⟩
  · intro htoast f hf
    rcases haddl : addLoop s [] files with ⟨s2, oadd⟩
    cases oadd with
    | none =>
        rw [show (handleAdd s videos files).2.2 = "Failed to add video" from by
            simp [handleAdd, haddl]] at htoast
        exact absurd htoast (by decide)
    | some added =>
        cases hne : added.isEmpty with
        | true =>
            rw [show (handleAdd s videos files).2.2
                  = "Video(s) added (session-only)" from by
                simp [handleAdd, haddl, hne]] at htoast
            exact absurd htoast (by decide)
        | false =>
            have hw := addLoop_success_written files s [] s2 added haddl f hf
            have ho := handleAdd_fst_opfs_of_success s videos files s2 added haddl hne
            unfold opfsNames at *
            rw [ho]
            exact hw
  · intro hinv st hst f hf hmeta
    have hst2 : st ∈ s :: addLoopStates s files ∨ st = (handleAdd s videos files).1 := by
      rcases List.mem_cons.mp hst with rfl | h2
      · exact Or.inl (List.mem_cons_self _ _)
      · rcases List.mem_append.mp h2 with h3 | h3
        · exact Or.inl (List.mem_cons_of_mem _ h3)
        · exact Or.inr (List.mem_singleton.mp h3)
    rcases hst2 with hmidst | hfin
    · have hm := hmid st hmidst
      have hop : ∀ n ∈ opfsNames s, n ∈ opfsNames st := by
        rcases List.mem_cons.mp hmidst with rfl | h2
        · exact fun n hn => hn
        · exact (addLoopStates_spec files s st h2).2
      rw [metaNames, hm, ← metaNames] at hmeta
      exact hop _ (hinv f hf hmeta)
    · rcases haddl : addLoop s [] files with ⟨s2, oadd⟩
      cases oadd with
      | none =>
          have hfe : (handleAdd s videos files).1 = s2 := by
            simp [handleAdd, haddl]
          have hs2 : (addLoop s [] files).1 = s2 := by rw [haddl]
          have hs2meta : s2.meta = s.meta := by
            rw [← hs2]; exact addLoop_meta files s []
          rw [hfin, hfe] at hmeta ⊢
          simp only [metaNames, hs2meta] at hmeta
          rw [← hs2]
          exact addLoop_opfs_mono files s [] f.name (hinv f hf hmeta)
      | some added =>
          cases hne : added.isEmpty with
          | true =>
              have hfe : (handleAdd s videos files).1 = s2 := by
                simp [handleAdd, haddl, hne]
              have hs2 : (addLoop s [] files).1 = s2 := by rw [haddl]
              have hs2meta : s2.meta = s.meta := by
                rw [← hs2]; exact addLoop_meta files s []
              rw [hfin, hfe] at hmeta ⊢
              simp only [metaNames, hs2meta] at hmeta
              rw [← hs2]
              exact addLoop_opfs_mono files s [] f.name (hinv f hf hmeta)
          | false =>
              have hw := addLoop_success_written files s [] s2 added haddl f hf
              have ho := handleAdd_fst_opfs_of_success s videos files s2 added haddl hne
              rw [hfin]
              unfold opfsNames at *
              rw [ho]
              exact hw

def stEmpty : St := ⟨[], [], 0⟩

/-- C1 witness: a successful two-file import reports success and both
    imported names are present in the Blob Store of the final state. -/
theorem c1_witness :
    "a.mp4" ∈ opfsNames
      (handleAdd stEmpty [] [⟨"a.mp4", 5, true⟩, ⟨"b.mp4", 3, true⟩]).1 :=
  (c1_writes_precede_index_update stEmpty []
      [⟨"a.mp4", 5, true⟩, ⟨"b.mp4", 3, true⟩]).2.1 rfl
    ⟨"a.mp4", 5, true⟩ (by decide)

/-- The cumulative effect of the successful writes of a file list. -/
def writeAll (s : St) (files : List FileInput) : St :=
  files.foldl writeOneOk s

theorem writeAll_meta (files : List FileInput) (s : St) :
    (writeAll s files).meta = s.meta := by
  induction files generalizing s with
  | nil => rfl
  | cons f rest ih => exact ih (writeOneOk s f)

theorem writeAll_opfs_mono (files : List FileInput) (s : St) (n : String)
    (h : n ∈ opfsNames s) : n ∈ opfsNames (writeAll s files) := by
  induction files generalizing s with
  | nil => exact h
  | cons f rest ih => exact ih _ (opfsNames_writeOneOk_mem s f n h)

theorem writeAll_mem (files : List FileInput) (s : St) :
    ∀ f ∈ files, f.name ∈ opfsNames (writeAll s files) := by
  induction files generalizing s with
  | nil => intro f hf; cases hf
  | cons g rest ih =>
      intro f hf
      rcases List.mem_cons.mp hf with rfl | h2
      · exact writeAll_opfs_mono rest _ _ (opfsNames_writeOneOk_self s f)
      · exact ih _ f h2

theorem addLoop_all_ok_then_err (pre : List FileInput) (bad : FileInput)
    (post : List FileInput) (s : St) (acc : List MetaRecord)
    (hpre : ∀ f ∈ pre, f.writeOk = true) (hbad : bad.writeOk = false) :
    addLoop s acc (pre ++ bad :: post) = (writeAll s pre, none) := by
  induction pre generalizing s acc with
  | nil =>
      rw [List.nil_append]
      exact addLoop_cons_err s acc bad post hbad
  | cons g pre ih =>
      rw [List.cons_append,
        addLoop_cons_ok s acc g (pre ++ bad :: post) (hpre g (by simp))]
      exact ih _ _ (fun f hf => hpre f (List.mem_cons_of_mem _ hf))

def exBadFiles : List FileInput :=
  [⟨"a.mp4", 1, true⟩, ⟨"b.mp4", 2, false⟩, ⟨"c.mp4", 3, true⟩]

/-- C8 counterexample: with a three-file import whose second write fails,
    the caller gets the single undifferentiated report "Failed to add
    video" (no success/failure counts), the Metadata Index is untouched,
    and the third file — an "other file" of the import — is NOT persisted,
    refuting the claim that the other files still persist and that the
    caller is told a degraded count. -/
theorem c8_counterexample :
    (handleAdd stEmpty [] exBadFiles).2.2 = "Failed to add video" ∧
    (handleAdd stEmpty [] exBadFiles).1.meta = [] ∧
    "c.mp4" ∉ opfsNames (handleAdd stEmpty [] exBadFiles).1 ∧
    "a.mp4" ∈ opfsNames (handleAdd stEmpty [] exBadFiles).1 := by
  exact ⟨rfl, rfl, by decide, by decide⟩

/-- C8 amended: when one file's write fails mid-import, handleAdd's single
    try/catch aborts the import: files written before the failing one do
    persist in the Blob Store, but the files after it are not processed,
    the Metadata Index is not updated at all, and the caller receives only
    the fixed message "Failed to add video" with no counts. -/
theorem c8_amended_failed_import_aborts (s : St) (videos : List Video)
    (pre : List FileInput) (bad : FileInput) (post : List FileInput)
    (hpre : ∀ f ∈ pre, f.writeOk = true) (hbad : bad.writeOk = false) :
    handleAdd s videos (pre ++ bad :: post)
      = (writeAll s pre, videos, "Failed to add video") ∧
    (writeAll s pre).meta = s.meta ∧
    ∀ f ∈ pre, f.name ∈ opfsNames (writeAll s pre) := by
  refine ⟨?_, writeAll_meta pre s, writeAll_mem pre s⟩
  have h := addLoop_all_ok_then_err pre bad post s [] hpre hbad
  simp [handleAdd, h]

/-- C8 amended witness: the concrete failing import aborts with the fixed
    message, state equal to the writes before the failure, and the first
    file persisted. -/
theorem c8_amended_witness :
    handleAdd stEmpty [] [⟨"a.mp4", 1, true⟩, ⟨"b.mp4", 2, false⟩, ⟨"c.mp4", 3, true⟩]
        = (writeAll stEmpty [⟨"a.mp4", 1, true⟩], [], "Failed to add video") ∧
    (writeAll stEmpty [⟨"a.mp4", 1, true⟩]).meta = [] ∧
    ∀ f ∈ [(⟨"a.mp4", 1, true⟩ : FileInput)],
      f.name ∈ opfsNames (writeAll stEmpty [⟨"a.mp4", 1, true⟩]) :=
  c8_amended_failed_import_aborts stEmpty [] [⟨"a.mp4", 1, true⟩]
    ⟨"b.mp4", 2, false⟩ [⟨"c.mp4", 3, true⟩] (by decide) rfl

/-- C3 witness: rebuilding over one orphaned and one intact record lists the
    intact one with a handle freshly allocated at the current counter. -/
theorem c3_witness : stOrphan.nextUrl ≤ (⟨"b.mp4", 9, 0⟩ : Video).url :=
  (c3_rebuild_exact_successes stOrphan).2.2 ⟨"b.mp4", 9, 0⟩ (by decide)
